import Mathlib

/-!
Verification of the skeleton/hierarchy container of
`src/dev/Gems/EMotionFX/Code/EMotionFX/Source/Skeleton.h` (class
`EMotionFX::Skeleton`).

The repository supplies only the header: the inline accessors
(`GetNumNodes`, `GetNode`, `GetNumRootNodes`, `GetRootNodeIndex`) have
their bodies in src/, while every other member function is a declaration
whose body lives in a translation unit that is not part of src/.  Those
missing bodies are modelled from the specification; each such definition
carries a doc comment starting with `Modelled from the spec:`.

Shallow embedding choices:
* `MCore::Array<X>` becomes `List X`; unchecked `operator[]` becomes the
  fallible `l[i]?` (out of range, the C++ behaviour is undefined, which
  the embedding renders as `none`), and reads that the source only
  performs inside the valid range use `List.getD`.
* `Node*` becomes the record `Node` holding exactly the fields this
  component reads or writes: name, name-derived id, optional parent
  index (`MCORE_INVALIDINDEX32` becomes `none`), and the cached
  self-index.
* `MCore::Matrix` and `Transform` are external collaborators, so matrix
  values are an arbitrary type `M` with an abstract composition
  `comb : M → M → M`, and transforms an arbitrary type `T` with an
  abstract per-joint local-matrix construction `toM : T → M`.
-/

set_option autoImplicit false

namespace EMotionFX

/-- A skeleton joint as seen through this component's interface: a name
(used by the case-sensitive and case-insensitive searches), the numeric
identifier derived from the name, the optional parent index, and the
cached self-index slot that `UpdateNodeIndexValues` resynchronises. -/
structure Node where
  name : String
  id : Nat
  parentIndex : Option Nat
  nodeIndex : Nat
deriving Repr, DecidableEq

/-- Default joint used by `List.getD` reads; the source never reads out
of range on the paths we verify, so this value never feeds a result. -/
def dfltNode : Node :=
  { name := "", id := 0, parentIndex := none, nodeIndex := 0 }

/-- The `Skeleton` aggregate: the joint store `mNodes`, the root registry
`mRootNodes` (indices into the joint store), and the bind pose
`mBindPose` (one transform per joint; the transform type `T` is
external). -/
structure Skeleton (T : Type) where
  mNodes : List Node
  mRootNodes : List Nat
  mBindPose : List T
deriving Repr, DecidableEq

variable {T : Type} {M : Type}

/-- `GetNumNodes`, inline in the header: `return mNodes.GetLength();`. -/
def GetNumNodes (skel : Skeleton T) : Nat :=
  skel.mNodes.length

/-- `GetNode`, inline in the header: `return mNodes[index];` — the
unchecked array access is embedded fallibly, `none` standing for the
undefined out-of-range behaviour. -/
def GetNode (skel : Skeleton T) (index : Nat) : Option Node :=
  skel.mNodes[index]?

/-- `GetNumRootNodes`, inline in the header:
`return mRootNodes.GetLength();`. -/
def GetNumRootNodes (skel : Skeleton T) : Nat :=
  skel.mRootNodes.length

/-- `GetRootNodeIndex`, inline in the header: `return mRootNodes[nr];` —
same fallible embedding of the unchecked access as `GetNode`. -/
def GetRootNodeIndex (skel : Skeleton T) (nr : Nat) : Option Nat :=
  skel.mRootNodes[nr]?

/-- Modelled from the spec: the body of `Skeleton::AddNode` is not under
src/.  Per the spec, `append(joint)` adds the joint at the end of the
joint store, increasing `count()` by one; the joint's cached self-index
is not touched. -/
def AddNode (skel : Skeleton T) (node : Node) : Skeleton T :=
  { skel with mNodes := skel.mNodes ++ [node] }

/-- Modelled from the spec: the body of `Skeleton::RemoveNode` is not
under src/.  Per the spec, `remove(index)` removes the joint at `index`,
shifting all later joints down by one position (the destroy flag only
concerns memory ownership, which the embedding does not track). -/
def RemoveNode (skel : Skeleton T) (nodeIndex : Nat) : Skeleton T :=
  { skel with mNodes := skel.mNodes.eraseIdx nodeIndex }

/-- Renumbering pass over the joint list: `i` is the array position of
the head of the remaining list; every joint at a position `≥ startNode`
gets its cached self-index overwritten with its position. -/
def renumberFrom (startNode : Nat) : Nat → List Node → List Node
  | _, [] => []
  | i, nd :: rest =>
      (if startNode ≤ i then { nd with nodeIndex := i } else nd)
        :: renumberFrom startNode (i + 1) rest

/-- Modelled from the spec: the body of `Skeleton::UpdateNodeIndexValues`
is not under src/.  Per the spec, `renumberFrom(startIndex)` walks all
joints from `startIndex` to the end and writes each joint's cached
self-index to match its current array position. -/
def UpdateNodeIndexValues (skel : Skeleton T) (startNode : Nat) : Skeleton T :=
  { skel with mNodes := renumberFrom startNode 0 skel.mNodes }

/-- Modelled from the spec: the body of `Skeleton::AddRootNode` is not
under src/.  Per the spec, `add(jointIndex)` appends `jointIndex` to the
root registry without validating it and without modifying the node
itself. -/
def AddRootNode (skel : Skeleton T) (nodeIndex : Nat) : Skeleton T :=
  { skel with mRootNodes := skel.mRootNodes ++ [nodeIndex] }

/-- Modelled from the spec: the body of `Skeleton::RemoveAllRootNodes`
is not under src/.  Per the spec (and the header's doc comment), it only
unregisters every root, so that `GetNumRootNodes()` returns zero, and
does not remove the actual nodes. -/
def RemoveAllRootNodes (skel : Skeleton T) : Skeleton T :=
  { skel with mRootNodes := [] }

/-- Modelled from the spec: the body of `Skeleton::FindNodeByName` is
not under src/.  Per the spec (and the header's doc comment), it is a
case-sensitive linear scan returning the first joint whose name matches
exactly, and the `nullptr` sentinel (here `none`) when none does. -/
def FindNodeByName (skel : Skeleton T) (name : String) : Option Node :=
  skel.mNodes.find? (fun nd => nd.name == name)

/-- Lowercase folding of a string's characters, the normalisation
underlying the case-insensitive comparison. -/
def lowerStr (s : String) : List Char :=
  s.data.map Char.toLower

/-- Case-insensitive string comparison, modelling the lowercase-folding
equality the source delegates to its string utility collaborator. -/
def strEqNoCase (a b : String) : Bool :=
  lowerStr a == lowerStr b

/-- Modelled from the spec: the body of `Skeleton::FindNodeByNameNoCase`
is not under src/.  Per the spec (and the header's doc comment), it is a
case-insensitive linear scan in insertion order, first match wins, with
the `nullptr` sentinel (here `none`) when no joint matches. -/
def FindNodeByNameNoCase (skel : Skeleton T) (name : String) : Option Node :=
  skel.mNodes.find? (fun nd => strEqNoCase nd.name name)

/-- `MCore::Array::Resize(n)` over lists: keep the first `n` elements and
pad with the default when the list is shorter; slot content beyond the
old length is unspecified in the source, the default `d` standing in. -/
def listResize (xs : List M) (n : Nat) (d : M) : List M :=
  xs.take n ++ List.replicate (n - xs.length) d

/-- The write loop of the global-matrix propagation: `i` is the current
node position, the second argument the number of remaining iterations,
and `out` the output array being filled in place.  A node with a parent
gets the parent's (already written) global matrix combined with the
node's local matrix; a parentless node gets its local matrix. -/
def calcGlobalLoop (comb : M → M → M) (nodes : List Node) (localMats : List M)
    (d : M) : Nat → Nat → List M → List M
  | _, 0, out => out
  | i, k + 1, out =>
      let v :=
        match (nodes.getD i dfltNode).parentIndex with
        | some p => comb (out.getD p d) (localMats.getD i d)
        | none => localMats.getD i d
      calcGlobalLoop comb nodes localMats d (i + 1) k (out.set i v)

/-- Modelled from the spec: the body of `Skeleton::CalcGlobalMatrices`
is not under src/.  Per the spec, the output array is resized to
`count()` regardless of its prior size, then every node in storage
order gets its global matrix: the parent's global matrix combined with
its own local matrix when it has a parent, its local matrix otherwise.
The matrix type and its composition are external, so they appear as the
abstract `M` and `comb`. -/
def CalcGlobalMatrices (comb : M → M → M) (skel : Skeleton T)
    (localMatrices : List M) (d : M) (outPrior : List M) : List M :=
  calcGlobalLoop comb skel.mNodes localMatrices d 0 (GetNumNodes skel)
    (listResize outPrior (GetNumNodes skel) d)

/-- Modelled from the spec: the body of `Skeleton::CalcLocalSpaceMatrix`
is not under src/.  Per the spec, it composes one joint's local-space
matrix from the supplied per-joint transform array, a pure function of
its inputs with no hierarchy traversal; the composition itself belongs
to the external transform collaborator, abstracted as `toM`. -/
def CalcLocalSpaceMatrix (toM : T → M) (dT : T) (localTransforms : List T)
    (nodeIndex : Nat) : M :=
  toM (localTransforms.getD nodeIndex dT)

/-- Modelled from the spec: the body of
`Skeleton::CalcBindPoseLocalMatrices` is not under src/.  Per the spec,
it applies the local-matrix composition to every joint using the bind
pose's transforms, the output resized to exactly `count()` entries (all
of which are overwritten, so the result is the fresh table). -/
def CalcBindPoseLocalMatrices (toM : T → M) (dT : T) (skel : Skeleton T) : List M :=
  (List.range (GetNumNodes skel)).map (CalcLocalSpaceMatrix toM dT skel.mBindPose)

/-- Modelled from the spec: the body of
`Skeleton::CalcBindPoseGlobalMatrices` is not under src/.  Per the spec,
it is the convenience composition of the previous two operations:
compute the bind-pose local matrices into a fresh array, then propagate
them to global space. -/
def CalcBindPoseGlobalMatrices (comb : M → M → M) (toM : T → M) (dT : T)
    (dM : M) (skel : Skeleton T) (outPrior : List M) : List M :=
  CalcGlobalMatrices comb skel (CalcBindPoseLocalMatrices toM dT skel) dM outPrior

/-- Fuel-indexed walk up the parent chain counting the hops until a
parentless joint; `none` when the fuel runs out, which only happens on a
cyclic parent structure (where the source would not terminate). -/
def hierDepthAux (nodes : List Node) : Nat → Nat → Option Nat
  | 0, _ => none
  | fuel + 1, i =>
      match (nodes.getD i dfltNode).parentIndex with
      | none => some 0
      | some p => (hierDepthAux nodes fuel p).map (fun k => k + 1)

/-- Modelled from the spec: the body of
`Skeleton::CalcHierarchyDepthForNode` is not under src/.  Per the spec,
it walks the parent chain from the node upward, counting steps until a
parentless joint is reached.  The embedding bounds the walk by the node
count (enough fuel for any acyclic chain over valid indices) and yields
`none` where the source would loop forever. -/
def CalcHierarchyDepthForNode (skel : Skeleton T) (nodeIndex : Nat) : Option Nat :=
  hierDepthAux skel.mNodes (GetNumNodes skel) nodeIndex

/-- Decidable rendering of the parent-before-child storage order: every
stored parent index is strictly smaller than its child's position. -/
def parentsPrecedeB (nodes : List Node) : Bool :=
  (List.range nodes.length).all (fun j =>
    match (nodes.getD j dfltNode).parentIndex with
    | some p => decide (p < j)
    | none => true)

/-- Decidable rendering of acyclicity of the parent structure: from
every node the parent chain reaches a parentless joint within the node
count many hops. -/
def acyclicB (nodes : List Node) : Bool :=
  (List.range nodes.length).all (fun i =>
    (hierDepthAux nodes nodes.length i).isSome)

/-- Joint constructor shorthand for the concrete witness skeletons. -/
def mkNode (nm : String) (pid : Option Nat) (idx : Nat) : Node :=
  { name := nm, id := 0, parentIndex := pid, nodeIndex := idx }

/-- Concrete three-joint chain used to witness the global-matrix
propagation contract. -/
def wSkelC1 : Skeleton Unit :=
  { mNodes := [mkNode "a" none 0, mkNode "b" (some 0) 1, mkNode "c" (some 1) 2]
    mRootNodes := [0]
    mBindPose := [(), (), ()] }

/-- Concrete three-joint skeleton used to witness removal followed by
renumbering. -/
def wSkelC2 : Skeleton Unit :=
  { mNodes := [mkNode "a" none 0, mkNode "b" (some 0) 1, mkNode "c" (some 1) 2]
    mRootNodes := [0]
    mBindPose := [(), (), ()] }

/-- Concrete skeleton with joints named Blah at position 2 and BLAH at
position 5, the configuration of the case-insensitive lookup example. -/
def wSkelC4 : Skeleton Unit :=
  { mNodes :=
      [mkNode "root" none 0, mkNode "hip" (some 0) 1, mkNode "Blah" (some 1) 2,
       mkNode "arm" (some 2) 3, mkNode "leg" (some 3) 4, mkNode "BLAH" (some 4) 5]
    mRootNodes := [0]
    mBindPose := [(), (), (), (), (), ()] }

/-- Concrete two-joint skeleton with one registered root, used to
witness the unchecked accessors. -/
def wSkelC5 : Skeleton Unit :=
  { mNodes := [mkNode "a" none 0, mkNode "b" (some 0) 1]
    mRootNodes := [0]
    mBindPose := [(), ()] }

/-- Concrete three-joint chain used to witness the hierarchy-depth
contract. -/
def wSkelC6 : Skeleton Unit :=
  { mNodes := [mkNode "a" none 0, mkNode "b" (some 0) 1, mkNode "c" (some 1) 2]
    mRootNodes := [0]
    mBindPose := [(), (), ()] }

/-- Concrete skeleton with joints named Blah and blah, the configuration
of the case-sensitive lookup example. -/
def wSkelC9 : Skeleton Unit :=
  { mNodes := [mkNode "Blah" none 0, mkNode "blah" (some 0) 1]
    mRootNodes := [0]
    mBindPose := [(), ()] }

end EMotionFX

namespace EMotionFX

/-- Reading a slot just written by `List.set`. -/
theorem getD_set_self {M : Type} (l : List M) (i : Nat) (v d : M) (h : i < l.length) :
    (l.set i v).getD i d = v := by
  rw [List.getD_eq_getElem?_getD, List.getElem?_set_self h]
  rfl

/-- Reading any other slot after a `List.set`. -/
theorem getD_set_ne {M : Type} (l : List M) {i j : Nat} (h : i ≠ j) (v d : M) :
    (l.set i v).getD j d = l.getD j d := by
  rw [List.getD_eq_getElem?_getD, List.getD_eq_getElem?_getD, List.getElem?_set_ne h]

/-- An in-range fallible read agrees with the defaulted read. -/
theorem getElem?_eq_some_getD {M : Type} (l : List M) (i : Nat) (d : M)
    (h : i < l.length) : l[i]? = some (l.getD i d) := by
  rw [List.getElem?_eq_getElem h, List.getD_eq_getElem?_getD, List.getElem?_eq_getElem h]
  rfl

/-- A linear `find?` returns the element at the least matching position:
if position `i` matches and every earlier position does not, the scan
yields exactly the element stored at `i`. -/
theorem find?_first {α : Type} (p : α → Bool) (l : List α) (d : α) (i : Nat)
    (hi : i < l.length) (hmatch : p (l.getD i d) = true)
    (hbefore : ∀ j, j < i → p (l.getD j d) = false) :
    l.find? p = some (l.getD i d) := by
  induction l generalizing i with
  | nil => exact absurd hi (by simp)
  | cons a rest ih =>
      cases i with
      | zero =>
          simp only [List.getD_cons_zero] at hmatch ⊢
          exact List.find?_cons_of_pos _ hmatch
      | succ i =>
          have h0 : p a = false := by simpa using hbefore 0 (Nat.succ_pos i)
          rw [List.find?_cons_of_neg _ (by simp [h0])]
          simp only [List.getD_cons_succ] at hmatch ⊢
          have hlen : i < rest.length := by
            simp only [List.length_cons] at hi
            omega
          refine ih i hlen hmatch ?_
          intro j hj
          simpa using hbefore (j + 1) (Nat.succ_lt_succ hj)

/-- Reading past a removed slot: positions at or after the erased index
shift down by one. -/
theorem getD_eraseIdx_ge {α : Type} (l : List α) (i j : Nat) (d : α) (h : i ≤ j) :
    (l.eraseIdx i).getD j d = l.getD (j + 1) d := by
  rw [List.getD_eq_getElem?_getD, List.getD_eq_getElem?_getD,
    List.getElem?_eraseIdx_of_ge l i j h]

/-- What one slot looks like after the renumbering pass: positions at or
beyond the start index carry their array position as cached self-index,
earlier positions are untouched. -/
theorem renumberFrom_getD (s : Nat) (d : Node) (l : List Node) :
    ∀ (i j : Nat), j < l.length →
      (renumberFrom s i l).getD j d =
        if s ≤ i + j then { l.getD j d with nodeIndex := i + j } else l.getD j d := by
  induction l with
  | nil =>
      intro i j h
      exact absurd h (by simp)
  | cons nd rest ih =>
      intro i j h
      cases j with
      | zero =>
          simp only [renumberFrom, List.getD_cons_zero, Nat.add_zero]
      | succ j =>
          simp only [renumberFrom, List.getD_cons_succ]
          have hlen : j < rest.length := by
            simp only [List.length_cons] at h
            omega
          rw [ih (i + 1) j hlen]
          have hadd : i + 1 + j = i + (j + 1) := by omega
          rw [hadd]

/-- C7: removing all root nodes empties the root registry while leaving
the joint store (count and stored joints) unchanged. -/
theorem removeAllRootNodes_spec {T : Type} (skel : Skeleton T) :
    GetNumNodes (RemoveAllRootNodes skel) = GetNumNodes skel ∧
    (RemoveAllRootNodes skel).mNodes = skel.mNodes ∧
    GetNumRootNodes (RemoveAllRootNodes skel) = 0 :=
  ⟨rfl, rfl, rfl⟩

/-- C8: appending a joint increases the node count by exactly one and
the joint at the new last position is the appended one; over any
sequence of consecutive `AddNode` calls the count grows by the length of
the sequence. -/
theorem addNode_spec {T : Type} (skel : Skeleton T) (node : Node) (ns : List Node) :
    GetNumNodes (AddNode skel node) = GetNumNodes skel + 1 ∧
    GetNode (AddNode skel node) (GetNumNodes (AddNode skel node) - 1) = some node ∧
    GetNumNodes (ns.foldl AddNode skel) = GetNumNodes skel + ns.length := by
  refine ⟨?_, ?_, ?_⟩
  · simp [GetNumNodes, AddNode]
  · have hlen : GetNumNodes (AddNode skel node) - 1 = skel.mNodes.length := by
      simp [GetNumNodes, AddNode]
    rw [hlen]
    show (skel.mNodes ++ [node])[skel.mNodes.length]? = some node
    simp
  · induction ns generalizing skel with
    | nil => simp
    | cons a rest ih =>
        have h := ih (AddNode skel a)
        simp only [List.foldl_cons, List.length_cons] at h ⊢
        rw [h]
        simp [GetNumNodes, AddNode]
        omega

/-- C10: registering a root appends the index to the root registry
(count up by one, new last entry equals the index) and leaves the joint
store, every stored joint, and the bind pose unchanged. -/
theorem addRootNode_spec {T : Type} (skel : Skeleton T) (nodeIndex : Nat) :
    GetNumRootNodes (AddRootNode skel nodeIndex) = GetNumRootNodes skel + 1 ∧
    GetRootNodeIndex (AddRootNode skel nodeIndex)
      (GetNumRootNodes (AddRootNode skel nodeIndex) - 1) = some nodeIndex ∧
    (AddRootNode skel nodeIndex).mNodes = skel.mNodes ∧
    GetNumNodes (AddRootNode skel nodeIndex) = GetNumNodes skel ∧
    (AddRootNode skel nodeIndex).mBindPose = skel.mBindPose := by
  refine ⟨?_, ?_, rfl, rfl, rfl⟩
  · simp [GetNumRootNodes, AddRootNode]
  · have hlen : GetNumRootNodes (AddRootNode skel nodeIndex) - 1
        = skel.mRootNodes.length := by
      simp [GetNumRootNodes, AddRootNode]
    rw [hlen]
    show (skel.mRootNodes ++ [nodeIndex])[skel.mRootNodes.length]? = some nodeIndex
    simp

/-- C5: inside the preconditions `index < GetNumNodes()` and
`nr < GetNumRootNodes()` the unchecked accessors return exactly the
stored element (the out-of-range branch of the fallible embedding is
unreachable), while outside them the embedding yields no value at all —
no clamping, no recovery. -/
theorem getNode_spec {T : Type} (skel : Skeleton T) (index nr : Nat)
    (hidx : index < GetNumNodes skel) (hnr : nr < GetNumRootNodes skel) :
    GetNode skel index = some (skel.mNodes.getD index dfltNode) ∧
    GetRootNodeIndex skel nr = some (skel.mRootNodes.getD nr 0) ∧
    (∀ j, GetNumNodes skel ≤ j → GetNode skel j = none) ∧
    (∀ j, GetNumRootNodes skel ≤ j → GetRootNodeIndex skel j = none) := by
  refine ⟨?_, ?_, ?_, ?_⟩
  · exact getElem?_eq_some_getD skel.mNodes index dfltNode hidx
  · exact getElem?_eq_some_getD skel.mRootNodes nr 0 hnr
  · intro j hj
    exact List.getElem?_eq_none hj
  · intro j hj
    exact List.getElem?_eq_none hj

/-- C5 witness: both accessors evaluated on a concrete two-joint
skeleton with one registered root. -/
theorem getNode_witness :
    1 < GetNumNodes wSkelC5 ∧ 0 < GetNumRootNodes wSkelC5 ∧
    GetNode wSkelC5 1 = some (wSkelC5.mNodes.getD 1 dfltNode) ∧
    GetRootNodeIndex wSkelC5 0 = some (wSkelC5.mRootNodes.getD 0 0) :=
  ⟨by decide, by decide,
    (getNode_spec wSkelC5 1 0 (by decide) (by decide)).1,
    (getNode_spec wSkelC5 1 0 (by decide) (by decide)).2.1⟩

/-- C9: the case-sensitive search returns the joint at the least exactly
matching position, and returns the `none` sentinel — mutating nothing,
the function not even taking the skeleton by mutable reference in the
embedding — when no stored name matches exactly. -/
theorem findNodeByName_spec {T : Type} (skel : Skeleton T) (name : String) (i : Nat)
    (hi : i < GetNumNodes skel)
    (hmatch : (skel.mNodes.getD i dfltNode).name = name)
    (hbefore : ∀ j, j < i → (skel.mNodes.getD j dfltNode).name ≠ name) :
    FindNodeByName skel name = some (skel.mNodes.getD i dfltNode) ∧
    ∀ nm : String, (∀ nd, nd ∈ skel.mNodes → nd.name ≠ nm) →
      FindNodeByName skel nm = none := by
  constructor
  · refine find?_first _ skel.mNodes dfltNode i hi ?_ ?_
    · simpa using hmatch
    · intro j hj
      simpa using hbefore j hj
  · intro nm h
    rw [FindNodeByName, List.find?_eq_none]
    intro x hx
    simpa using h x hx

/-- C9 witness: with joints named Blah and blah, searching Blah returns
the exact (case-sensitive) match at position 0. -/
theorem findNodeByName_witness :
    (wSkelC9.mNodes.getD 0 dfltNode).name = "Blah" ∧
    (wSkelC9.mNodes.getD 1 dfltNode).name = "blah" ∧
    FindNodeByName wSkelC9 "Blah" = some (wSkelC9.mNodes.getD 0 dfltNode) :=
  ⟨by decide, by decide,
    (findNodeByName_spec wSkelC9 "Blah" 0 (by decide) (by decide)
      (fun j hj => absurd hj (Nat.not_lt_zero j))).1⟩

/-- C4: the case-insensitive search scans in insertion order and the
joint at the least matching position wins when several names are equal
up to case. -/
theorem findNodeByNameNoCase_spec {T : Type} (skel : Skeleton T) (name : String)
    (i : Nat) (hi : i < GetNumNodes skel)
    (hmatch : strEqNoCase (skel.mNodes.getD i dfltNode).name name = true)
    (hbefore : ∀ j, j < i →
      strEqNoCase (skel.mNodes.getD j dfltNode).name name = false) :
    FindNodeByNameNoCase skel name = some (skel.mNodes.getD i dfltNode) :=
  find?_first _ skel.mNodes dfltNode i hi hmatch hbefore

/-- C4 witness: the spec's own example — joints named Blah at position 2
and BLAH at position 5, searching blah returns the joint at position 2. -/
theorem findNodeByNameNoCase_witness :
    (wSkelC4.mNodes.getD 2 dfltNode).name = "Blah" ∧
    (wSkelC4.mNodes.getD 5 dfltNode).name = "BLAH" ∧
    strEqNoCase (wSkelC4.mNodes.getD 2 dfltNode).name "blah" = true ∧
    (∀ j, j < 2 → strEqNoCase (wSkelC4.mNodes.getD j dfltNode).name "blah" = false) ∧
    FindNodeByNameNoCase wSkelC4 "blah" = some (wSkelC4.mNodes.getD 2 dfltNode) :=
  ⟨by decide, by decide, by decide, by decide,
    findNodeByNameNoCase_spec wSkelC4 "blah" 2 (by decide) (by decide) (by decide)⟩

/-- C2: after removing the joint at `i` and renumbering from `i`, the
joint that originally sat at any position `j > i` now sits at `j - 1`
and carries `j - 1` as its cached self-index (all other fields kept). -/
theorem removeNode_renumber_spec {T : Type} (skel : Skeleton T) (i j : Nat)
    (hi : i < GetNumNodes skel) (hij : i < j) (hj : j < GetNumNodes skel) :
    (UpdateNodeIndexValues (RemoveNode skel i) i).mNodes.getD (j - 1) dfltNode
      = { skel.mNodes.getD j dfltNode with nodeIndex := j - 1 } := by
  simp only [GetNumNodes] at hi hj
  have hlen : (skel.mNodes.eraseIdx i).length = skel.mNodes.length - 1 :=
    List.length_eraseIdx_of_lt hi
  have hj1 : j - 1 < (skel.mNodes.eraseIdx i).length := by omega
  show (renumberFrom i 0 (skel.mNodes.eraseIdx i)).getD (j - 1) dfltNode = _
  rw [renumberFrom_getD i dfltNode (skel.mNodes.eraseIdx i) 0 (j - 1) hj1]
  rw [if_pos (show i ≤ 0 + (j - 1) by omega)]
  rw [getD_eraseIdx_ge skel.mNodes i (j - 1) dfltNode (by omega)]
  have h1 : j - 1 + 1 = j := by omega
  have h2 : 0 + (j - 1) = j - 1 := by omega
  rw [h1, h2]

/-- C2 witness: on a concrete three-joint chain, removing joint 0 and
renumbering from 0 leaves the joint originally at position 2 at
position 1 with cached self-index 1. -/
theorem removeNode_renumber_witness :
    0 < GetNumNodes wSkelC2 ∧ (0 : Nat) < 2 ∧ 2 < GetNumNodes wSkelC2 ∧
    (UpdateNodeIndexValues (RemoveNode wSkelC2 0) 0).mNodes.getD 1 dfltNode
      = { wSkelC2.mNodes.getD 2 dfltNode with nodeIndex := 1 } :=
  ⟨by decide, by decide, by decide,
    removeNode_renumber_spec wSkelC2 0 2 (by decide) (by decide) (by decide)⟩

/-- Resizing always yields exactly the requested length. -/
theorem length_listResize {M : Type} (xs : List M) (n : Nat) (d : M) :
    (listResize xs n d).length = n := by
  simp [listResize]
  omega

/-- The write loop never changes the length of the output array. -/
theorem calcGlobalLoop_length {M : Type} (comb : M → M → M) (nodes : List Node)
    (localMats : List M) (d : M) :
    ∀ (k i : Nat) (out : List M),
      (calcGlobalLoop comb nodes localMats d i k out).length = out.length := by
  intro k
  induction k with
  | zero =>
      intro i out
      rfl
  | succ k ih =>
      intro i out
      simp only [calcGlobalLoop]
      rw [ih]
      simp

/-- Unpacking the boolean parent-before-child check into its meaning. -/
theorem parentsPrecedeB_spec (nodes : List Node) (h : parentsPrecedeB nodes = true) :
    ∀ j p, j < nodes.length → (nodes.getD j dfltNode).parentIndex = some p → p < j := by
  intro j p hj hp
  have h2 : (match (nodes.getD j dfltNode).parentIndex with
      | some p2 => decide (p2 < j)
      | none => true) = true :=
    List.all_eq_true.mp h j (List.mem_range.mpr hj)
  rw [hp] at h2
  exact of_decide_eq_true h2

/-- Invariant of the global-matrix write loop: once all slots below the
cursor satisfy the local-to-global propagation equations, running the
loop to the end makes every slot satisfy them. -/
theorem calcGlobalLoop_invariant {M : Type} (comb : M → M → M) (nodes : List Node)
    (localMats : List M) (d : M)
    (hpar : ∀ j p, j < nodes.length →
      (nodes.getD j dfltNode).parentIndex = some p → p < j) :
    ∀ (k i : Nat) (out : List M), i + k = nodes.length → out.length = nodes.length →
      (∀ j, j < i →
        ((nodes.getD j dfltNode).parentIndex = none →
          out.getD j d = localMats.getD j d) ∧
        (∀ p, (nodes.getD j dfltNode).parentIndex = some p →
          out.getD j d = comb (out.getD p d) (localMats.getD j d))) →
      ∀ j, j < nodes.length →
        ((nodes.getD j dfltNode).parentIndex = none →
          (calcGlobalLoop comb nodes localMats d i k out).getD j d
            = localMats.getD j d) ∧
        (∀ p, (nodes.getD j dfltNode).parentIndex = some p →
          (calcGlobalLoop comb nodes localMats d i k out).getD j d
            = comb ((calcGlobalLoop comb nodes localMats d i k out).getD p d)
                (localMats.getD j d)) := by
  intro k
  induction k with
  | zero =>
      intro i out hik hlen hinv j hj
      simp only [calcGlobalLoop]
      exact hinv j (by omega)
  | succ k ih =>
      intro i out hik hlen hinv j hj
      have hi_lt : i < nodes.length := by omega
      cases hp : (nodes.getD i dfltNode).parentIndex with
      | none =>
          simp only [calcGlobalLoop, hp]
          refine ih (i + 1) (out.set i (localMats.getD i d)) (by omega) (by simpa using hlen)
            ?_ j hj
          intro j2 hj2
          by_cases hji : j2 < i
          · have hprev := hinv j2 hji
            constructor
            · intro hnone
              rw [getD_set_ne out (by omega : i ≠ j2)]
              exact hprev.1 hnone
            · intro p2 hp2
              have hplt : p2 < j2 := hpar j2 p2 (by omega) hp2
              rw [getD_set_ne out (by omega : i ≠ j2), getD_set_ne out (by omega : i ≠ p2)]
              exact hprev.2 p2 hp2
          · have hj2i : j2 = i := by omega
            subst hj2i
            constructor
            · intro _
              exact getD_set_self out j2 (localMats.getD j2 d) d (by omega)
            · intro p2 hp2
              rw [hp] at hp2
              exact Option.noConfusion hp2
      | some p =>
          have hplt : p < i := hpar i p hi_lt hp
          simp only [calcGlobalLoop, hp]
          refine ih (i + 1) (out.set i (comb (out.getD p d) (localMats.getD i d)))
            (by omega) (by simpa using hlen) ?_ j hj
          intro j2 hj2
          by_cases hji : j2 < i
          · have hprev := hinv j2 hji
            constructor
            · intro hnone
              rw [getD_set_ne out (by omega : i ≠ j2)]
              exact hprev.1 hnone
            · intro p2 hp2
              have hplt2 : p2 < j2 := hpar j2 p2 (by omega) hp2
              rw [getD_set_ne out (by omega : i ≠ j2), getD_set_ne out (by omega : i ≠ p2)]
              exact hprev.2 p2 hp2
          · have hj2i : j2 = i := by omega
            subst hj2i
            constructor
            · intro hnone
              rw [hp] at hnone
              exact Option.noConfusion hnone
            · intro p2 hp2
              have hpp : p2 = p := by
                rw [hp] at hp2
                exact (Option.some.inj hp2).symm
              subst hpp
              rw [getD_set_self out j2 (comb (out.getD p2 d) (localMats.getD j2 d)) d
                  (by omega)]
              rw [getD_set_ne out (by omega : j2 ≠ p2)]

/-- Unpacking the boolean acyclicity check into its meaning. -/
theorem acyclicB_spec (nodes : List Node) (h : acyclicB nodes = true) :
    ∀ i, i < nodes.length → (hierDepthAux nodes nodes.length i).isSome = true := by
  intro i hi
  have h2 := List.all_eq_true.mp h i (List.mem_range.mpr hi)
  simpa using h2

/-- The fuel-indexed depth walk is stable under adding fuel. -/
theorem hierDepthAux_mono (nodes : List Node) :
    ∀ (fuel1 fuel2 i k : Nat), hierDepthAux nodes fuel1 i = some k → fuel1 ≤ fuel2 →
      hierDepthAux nodes fuel2 i = some k := by
  intro fuel1
  induction fuel1 with
  | zero =>
      intro fuel2 i k h _
      exact absurd h (by simp [hierDepthAux])
  | succ f ih =>
      intro fuel2 i k h hle
      cases fuel2 with
      | zero => omega
      | succ f2 =>
          cases hp : (nodes.getD i dfltNode).parentIndex with
          | none =>
              simp only [hierDepthAux, hp] at h ⊢
              exact h
          | some p =>
              simp only [hierDepthAux, hp] at h ⊢
              rcases Option.map_eq_some'.mp h with ⟨kp, hkp, hkk⟩
              rw [ih f2 p kp hkp (by omega)]
              simp [hkk]

/-- A parentless joint has depth zero whenever any fuel is available. -/
theorem hierDepthAux_parent_none (nodes : List Node) (fuel i : Nat)
    (hp : (nodes.getD i dfltNode).parentIndex = none) (hf : 0 < fuel) :
    hierDepthAux nodes fuel i = some 0 := by
  cases fuel with
  | zero => omega
  | succ f => simp only [hierDepthAux, hp]

/-- Conversely, a successful depth walk from a parentless joint can only
have produced zero. -/
theorem hierDepthAux_none_eq_zero (nodes : List Node) (fuel i k : Nat)
    (hp : (nodes.getD i dfltNode).parentIndex = none)
    (h : hierDepthAux nodes fuel i = some k) : k = 0 := by
  cases fuel with
  | zero => simp [hierDepthAux] at h
  | succ f =>
      simp only [hierDepthAux] at h
      rw [hp] at h
      simp at h
      omega

/-- One step of the depth walk through a joint that has a parent. -/
theorem hierDepthAux_step (nodes : List Node) (fuel i p k : Nat)
    (hp : (nodes.getD i dfltNode).parentIndex = some p)
    (h : hierDepthAux nodes (fuel + 1) i = some k) :
    ∃ kp, hierDepthAux nodes fuel p = some kp ∧ k = kp + 1 := by
  simp only [hierDepthAux, hp] at h
  rcases Option.map_eq_some'.mp h with ⟨kp, hkp, hkk⟩
  exact ⟨kp, hkp, hkk.symm⟩

/-- C1: under the parent-before-child storage order and an input of
exactly `count()` local matrices, the propagation resizes the output to
`count()` regardless of the prior output, gives every parentless node
its own local matrix, and gives every parented node the parent's global
matrix combined with the node's own local matrix. -/
theorem calcGlobalMatrices_spec {T M : Type} (comb : M → M → M) (skel : Skeleton T)
    (localMats : List M) (d : M) (outPrior : List M)
    (hpar : parentsPrecedeB skel.mNodes = true)
    (_hlen : localMats.length = GetNumNodes skel) :
    (CalcGlobalMatrices comb skel localMats d outPrior).length = GetNumNodes skel ∧
    ∀ j, j < GetNumNodes skel →
      ((skel.mNodes.getD j dfltNode).parentIndex = none →
        (CalcGlobalMatrices comb skel localMats d outPrior).getD j d
          = localMats.getD j d) ∧
      ∀ p, (skel.mNodes.getD j dfltNode).parentIndex = some p →
        (CalcGlobalMatrices comb skel localMats d outPrior).getD j d
          = comb ((CalcGlobalMatrices comb skel localMats d outPrior).getD p d)
              (localMats.getD j d) := by
  have hpar2 := parentsPrecedeB_spec skel.mNodes hpar
  constructor
  · simp only [CalcGlobalMatrices]
    rw [calcGlobalLoop_length]
    exact length_listResize outPrior (GetNumNodes skel) d
  · intro j hj
    have hinv0 : ∀ j2 : Nat, j2 < 0 →
        ((skel.mNodes.getD j2 dfltNode).parentIndex = none →
          (listResize outPrior (GetNumNodes skel) d).getD j2 d = localMats.getD j2 d) ∧
        (∀ p, (skel.mNodes.getD j2 dfltNode).parentIndex = some p →
          (listResize outPrior (GetNumNodes skel) d).getD j2 d
            = comb ((listResize outPrior (GetNumNodes skel) d).getD p d)
                (localMats.getD j2 d)) :=
      fun j2 hj2 => absurd hj2 (Nat.not_lt_zero j2)
    exact calcGlobalLoop_invariant comb skel.mNodes localMats d hpar2
      (GetNumNodes skel) 0 (listResize outPrior (GetNumNodes skel) d)
      (by simp [GetNumNodes]) (length_listResize outPrior (GetNumNodes skel) d)
      hinv0 j hj

/-- C1 witness: on a concrete three-joint chain with list concatenation
as the abstract matrix composition, the propagation fills all three
slots as the contract states. -/
theorem calcGlobalMatrices_witness :
    parentsPrecedeB wSkelC1.mNodes = true ∧
    ([[10], [20], [30]] : List (List Nat)).length = GetNumNodes wSkelC1 ∧
    (CalcGlobalMatrices (fun a b : List Nat => a ++ b) wSkelC1
      [[10], [20], [30]] [] []).length = GetNumNodes wSkelC1 ∧
    (CalcGlobalMatrices (fun a b : List Nat => a ++ b) wSkelC1
      [[10], [20], [30]] [] []).getD 0 [] = [10] ∧
    (CalcGlobalMatrices (fun a b : List Nat => a ++ b) wSkelC1
      [[10], [20], [30]] [] []).getD 2 []
      = (CalcGlobalMatrices (fun a b : List Nat => a ++ b) wSkelC1
          [[10], [20], [30]] [] []).getD 1 [] ++ [30] := by
  have h := calcGlobalMatrices_spec (fun a b : List Nat => a ++ b) wSkelC1
    [[10], [20], [30]] [] [] (by decide) (by decide)
  refine ⟨by decide, by decide, h.1, ?_, ?_⟩
  · exact (h.2 0 (by decide)).1 (by decide)
  · exact (h.2 2 (by decide)).2 1 (by decide)

/-- C3: the bind-pose global computation is exactly the composition of
the bind-pose local computation with the global propagation, and both
deliver `count()` entries. -/
theorem calcBindPoseGlobalMatrices_spec {T M : Type} (comb : M → M → M) (toM : T → M)
    (dT : T) (dM : M) (skel : Skeleton T) (outPrior : List M) :
    CalcBindPoseGlobalMatrices comb toM dT dM skel outPrior
      = CalcGlobalMatrices comb skel (CalcBindPoseLocalMatrices toM dT skel) dM
          outPrior ∧
    (CalcBindPoseLocalMatrices toM dT skel).length = GetNumNodes skel ∧
    (CalcBindPoseGlobalMatrices comb toM dT dM skel outPrior).length
      = GetNumNodes skel := by
  refine ⟨rfl, ?_, ?_⟩
  · simp [CalcBindPoseLocalMatrices]
  · simp only [CalcBindPoseGlobalMatrices, CalcGlobalMatrices]
    rw [calcGlobalLoop_length]
    exact length_listResize outPrior (GetNumNodes skel) dM

/-- C6: on an acyclic parent structure the depth walk terminates with
zero on roots, with one on children of roots, and never decreases along
a parent-to-child edge. -/
theorem calcHierarchyDepth_spec {T : Type} (skel : Skeleton T)
    (hac : acyclicB skel.mNodes = true) :
    (∀ i, i < GetNumNodes skel → (skel.mNodes.getD i dfltNode).parentIndex = none →
      CalcHierarchyDepthForNode skel i = some 0) ∧
    (∀ i p, i < GetNumNodes skel →
      (skel.mNodes.getD i dfltNode).parentIndex = some p →
      (skel.mNodes.getD p dfltNode).parentIndex = none →
      CalcHierarchyDepthForNode skel i = some 1) ∧
    (∀ i p di dp, i < GetNumNodes skel →
      (skel.mNodes.getD i dfltNode).parentIndex = some p →
      CalcHierarchyDepthForNode skel i = some di →
      CalcHierarchyDepthForNode skel p = some dp →
      dp ≤ di) := by
  have hsome := acyclicB_spec skel.mNodes hac
  refine ⟨?_, ?_, ?_⟩
  · intro i hi hp
    simp only [GetNumNodes] at hi
    simp only [CalcHierarchyDepthForNode, GetNumNodes]
    exact hierDepthAux_parent_none skel.mNodes skel.mNodes.length i hp (by omega)
  · intro i p hi hp hpp
    simp only [GetNumNodes] at hi
    simp only [CalcHierarchyDepthForNode, GetNumNodes]
    have hs := hsome i hi
    rcases Option.isSome_iff_exists.mp hs with ⟨k, hk⟩
    rcases Nat.exists_eq_succ_of_ne_zero (show skel.mNodes.length ≠ 0 by omega)
      with ⟨m, hm⟩
    rw [hm] at hk ⊢
    rcases hierDepthAux_step skel.mNodes m i p k hp hk with ⟨kp, hkp, hkk⟩
    have hkp0 : kp = 0 := hierDepthAux_none_eq_zero skel.mNodes m p kp hpp hkp
    rw [hk, hkk, hkp0]
  · intro i p di dp hi hp hdi hdp
    simp only [GetNumNodes] at hi
    simp only [CalcHierarchyDepthForNode, GetNumNodes] at hdi hdp
    rcases Nat.exists_eq_succ_of_ne_zero (show skel.mNodes.length ≠ 0 by omega)
      with ⟨m, hm⟩
    rw [hm] at hdi
    rcases hierDepthAux_step skel.mNodes m i p di hp hdi with ⟨kp, hkp, hkk⟩
    have hmono : hierDepthAux skel.mNodes skel.mNodes.length p = some kp :=
      hierDepthAux_mono skel.mNodes m skel.mNodes.length p kp hkp (by omega)
    rw [hmono] at hdp
    have hdpk : kp = dp := Option.some.inj hdp
    omega

/-- C6 witness: on a concrete three-joint chain the root has depth zero
and its child depth one. -/
theorem calcHierarchyDepth_witness :
    acyclicB wSkelC6.mNodes = true ∧
    CalcHierarchyDepthForNode wSkelC6 0 = some 0 ∧
    CalcHierarchyDepthForNode wSkelC6 1 = some 1 :=
  ⟨by decide,
    (calcHierarchyDepth_spec wSkelC6 (by decide)).1 0 (by decide) (by decide),
    (calcHierarchyDepth_spec wSkelC6 (by decide)).2.1 1 0 (by decide) (by decide)
      (by decide)⟩

end EMotionFX
